import Mathlib

set_option linter.unusedVariables false

/-! Shallow embedding of the threatPool repository: the counting semaphores
(class semaphore and class fast_semaphore of the semaphore header), the
queue back-ends of queue.h, the lock-free ring queue reservation protocol,
and the multi-queue thread pool of threat_pool.h.  Machine integers are
modelled as Nat or Int; operations that can block forever in a
single-threaded run return Option, with none meaning the call does not
return. -/

/-- State of the plain counting semaphore: the unsigned counter m_count and
the closed flag m_done. -/
structure semaphore where
  m_count : Nat
  m_done : Bool
deriving DecidableEq, Repr

namespace semaphore

/-- post: under the lock, increment the counter; then notify one waiter. -/
def post (s : semaphore) : semaphore := { s with m_count := s.m_count + 1 }

/-- wait: block until m_count is nonzero or m_done holds; then the result is
m_count not zero, decrementing the counter exactly on a true result.  A call
whose predicate never becomes true is none (it does not return). -/
def wait (s : semaphore) : Option (Bool × semaphore) :=
  if s.m_count ≠ 0 then some (true, { s with m_count := s.m_count - 1 })
  else if s.m_done then some (false, s)
  else none

/-- wait_for with the zero timeout used by try_push and try_pop: the call
returns at once; the result is m_count not zero, decrementing on success. -/
def wait_for (s : semaphore) : Bool × semaphore :=
  if s.m_count ≠ 0 then (true, { s with m_count := s.m_count - 1 })
  else (false, s)

/-- done: set m_done and notify all waiters. -/
def done (s : semaphore) : semaphore := { s with m_done := true }

end semaphore

/-- State of fast_semaphore: the signed atomic counter m_count and the inner
kernel semaphore m_semaphore. -/
structure fast_semaphore where
  m_count : Int
  m_semaphore : semaphore
deriving DecidableEq, Repr

namespace fast_semaphore

/-- post: fetch_add one on m_count; when the previous value was negative a
waiter is parked, so post the inner semaphore. -/
def post (s : fast_semaphore) : fast_semaphore :=
  if s.m_count < 0 then
    { m_count := s.m_count + 1, m_semaphore := s.m_semaphore.post }
  else
    { s with m_count := s.m_count + 1 }

/-- tryWait: load m_count; when it is positive, CAS it one lower and return
true; otherwise return false without touching any state.  In the sequential
model the CAS always succeeds when attempted. -/
def tryWait (s : fast_semaphore) : Bool × fast_semaphore :=
  if 0 < s.m_count then (true, { s with m_count := s.m_count - 1 })
  else (false, s)

/-- wait_for: the source ignores the timeout argument t entirely and calls
tryWait. -/
def wait_for (t : Nat) (s : fast_semaphore) : Bool × fast_semaphore :=
  tryWait s

/-- wait: the fast path is tryWait; when it fails the spin loop of
waitWithPartialSpinning cannot succeed in a single-threaded run, so the
thread fetch_subs the counter and, the previous value being nonpositive,
delegates to the inner semaphore wait. -/
def wait (s : fast_semaphore) : Option (Bool × fast_semaphore) :=
  if 0 < s.m_count then some (true, { s with m_count := s.m_count - 1 })
  else
    match s.m_semaphore.wait with
    | none => none
    | some (b, inner) => some (b, { m_count := s.m_count - 1, m_semaphore := inner })

/-- done: delegate to the inner semaphore. -/
def done (s : fast_semaphore) : fast_semaphore :=
  { s with m_semaphore := s.m_semaphore.done }

end fast_semaphore

/-- An operation of the signal counting law: one post or one wait call. -/
inductive SigOp
  | post
  | wait
deriving DecidableEq, Repr

/-- Interleaving state of the plain semaphore under a sequence of post and
wait operations: the counter, the number of waiters currently blocked inside
wait, and the number of wait calls that have already returned true. -/
structure semRunState where
  m_count : Nat
  waiting : Nat
  served : Nat
deriving DecidableEq, Repr

/-- One operation of the interleaved run on the plain semaphore.  A post
while a waiter is blocked increments the counter and wakes the waiter, which
re-checks the predicate, decrements and returns true; with no blocked waiter
the counter simply grows.  A wait with a positive counter decrements and
returns true at once; otherwise the caller blocks. -/
def semRunStep (s : semRunState) : SigOp → semRunState
  | SigOp.post =>
    if s.waiting ≠ 0 then
      { s with waiting := s.waiting - 1, served := s.served + 1 }
    else
      { s with m_count := s.m_count + 1 }
  | SigOp.wait =>
    if s.m_count ≠ 0 then
      { s with m_count := s.m_count - 1, served := s.served + 1 }
    else
      { s with waiting := s.waiting + 1 }

/-- Run a sequence of operations on the plain semaphore from initial count c. -/
def semRunOps (c : Nat) (ops : List SigOp) : semRunState :=
  ops.foldl semRunStep { m_count := c, waiting := 0, served := 0 }

/-- Interleaving state of fast_semaphore: the signed counter, the token count
and parked-waiter count of the inner semaphore, and the number of wait calls
that have returned true. -/
structure fastRunState where
  m_count : Int
  innerCount : Nat
  innerWaiting : Nat
  served : Nat
deriving DecidableEq, Repr

/-- One operation of the interleaved run on fast_semaphore.  post fetch_adds
the counter and, when the previous value was negative, posts the inner
semaphore, which either wakes a parked waiter (whose inner wait then returns
true) or banks a token.  wait takes the tryWait fast path when the counter
is positive; otherwise it fetch_subs the counter and waits on the inner
semaphore, consuming a banked token or parking. -/
def fastRunStep (s : fastRunState) : SigOp → fastRunState
  | SigOp.post =>
    if s.m_count < 0 then
      if s.innerWaiting ≠ 0 then
        { s with m_count := s.m_count + 1, innerWaiting := s.innerWaiting - 1,
                 served := s.served + 1 }
      else
        { s with m_count := s.m_count + 1, innerCount := s.innerCount + 1 }
    else
      { s with m_count := s.m_count + 1 }
  | SigOp.wait =>
    if 0 < s.m_count then
      { s with m_count := s.m_count - 1, served := s.served + 1 }
    else if s.innerCount ≠ 0 then
      { s with m_count := s.m_count - 1, innerCount := s.innerCount - 1,
               served := s.served + 1 }
    else
      { s with m_count := s.m_count - 1, innerWaiting := s.innerWaiting + 1 }

/-- Run a sequence of operations on fast_semaphore from initial count c. -/
def fastRunOps (c : Nat) (ops : List SigOp) : fastRunState :=
  ops.foldl fastRunStep { m_count := (c : Int), innerCount := 0, innerWaiting := 0, served := 0 }

/-- Number of post operations in a sequence. -/
def nPosts : List SigOp → Nat
  | [] => 0
  | SigOp.post :: rest => nPosts rest + 1
  | SigOp.wait :: rest => nPosts rest

/-- Number of wait operations in a sequence. -/
def nWaits : List SigOp → Nat
  | [] => 0
  | SigOp.post :: rest => nWaits rest
  | SigOp.wait :: rest => nWaits rest + 1

/-- Inductive invariant of the plain semaphore run, relative to the initial
count and the numbers of posts and waits processed so far. -/
def semRunInv (c P W : Nat) (s : semRunState) : Prop :=
  s.m_count + s.served = c + P ∧ s.waiting + s.served = W ∧
    (s.m_count = 0 ∨ s.waiting = 0)

/-- Inductive invariant of the fast_semaphore run: the counter tracks posts
minus waits, the inner semaphore never banks a token, parked waiters equal
the negative part of the counter, and every wait not parked has been served. -/
def fastRunInv (c P W : Nat) (s : fastRunState) : Prop :=
  s.m_count = (c : Int) + P - W ∧ s.innerCount = 0 ∧
    s.innerWaiting = (-s.m_count).toNat ∧ s.served + s.innerWaiting = W

variable {T : Type}

/-- State of the mutex-guarded blocking_queue: the FIFO contents and the
m_done flag. -/
structure blocking_queue (T : Type) where
  m_queue : List T
  m_done : Bool
deriving DecidableEq, Repr

namespace blocking_queue

/-- pop: wait while the queue is empty and not done; then return false when
the queue is still empty (hence done), otherwise move the front element out
and return true.  A call whose wait never ends is none. -/
def pop (s : blocking_queue T) : Option (Bool × Option T × blocking_queue T) :=
  match s.m_queue with
  | [] => if s.m_done then some (false, none, s) else none
  | x :: rest => some (true, some x, { s with m_queue := rest })

/-- push: append the item under the lock and notify one waiter. -/
def push (s : blocking_queue T) (item : T) : blocking_queue T :=
  { s with m_queue := s.m_queue ++ [item] }

/-- done: set m_done and notify all waiters. -/
def done (s : blocking_queue T) : blocking_queue T := { s with m_done := true }

end blocking_queue

/-- State of fixed_blocking_queue: capacity m_size, push and pop indices,
the element count, the slot array (none models uninitialised raw storage),
and the two gating semaphores m_openSlots and m_fullSlots. -/
structure fixed_blocking_queue (T : Type) where
  m_size : Nat
  m_pushIndex : Nat
  m_popIndex : Nat
  m_count : Nat
  m_data : List (Option T)
  m_openSlots : semaphore
  m_fullSlots : semaphore
deriving DecidableEq, Repr

namespace fixed_blocking_queue

/-- push for an element type whose copy or move constructor can throw,
parameterised by whether constructing this item throws.  Except.error is the
exception propagating to the caller together with the state at the throw,
after the catch block has re-posted the open-slots signal; none is a push
blocked forever inside the open-slots wait. -/
def push (s : fixed_blocking_queue T) (item : T) (throws : Bool) :
    Option (Except (fixed_blocking_queue T) (fixed_blocking_queue T)) :=
  match s.m_openSlots.wait with
  | none => none
  | some (false, op) => some (Except.ok { s with m_openSlots := op })
  | some (true, op) =>
    if throws then
      some (Except.error { s with m_openSlots := op.post })
    else
      some (Except.ok
        { s with
          m_openSlots := op,
          m_data := s.m_data.set s.m_pushIndex (some item),
          m_pushIndex := (s.m_pushIndex + 1) % s.m_size,
          m_count := s.m_count + 1,
          m_fullSlots := s.m_fullSlots.post })

/-- try_push for a throwing element type: the gate is wait_for with a zero
timeout; a false gate result returns false at once, the rest is as push. -/
def try_push (s : fixed_blocking_queue T) (item : T) (throws : Bool) :
    Except (fixed_blocking_queue T) (Bool × fixed_blocking_queue T) :=
  match s.m_openSlots.wait_for with
  | (false, op) => Except.ok (false, { s with m_openSlots := op })
  | (true, op) =>
    if throws then
      Except.error { s with m_openSlots := op.post }
    else
      Except.ok (true,
        { s with
          m_openSlots := op,
          m_data := s.m_data.set s.m_pushIndex (some item),
          m_pushIndex := (s.m_pushIndex + 1) % s.m_size,
          m_count := s.m_count + 1,
          m_fullSlots := s.m_fullSlots.post })

end fixed_blocking_queue

namespace atomic_blocking_queue_impl

/-- The destructor loop condition as the C++ grammar parses it: the
inequality binds tighter than the bitwise and, so the test is
(m_popIndex & (Q_MASK != m_pushIndex)) & Q_MASK with the comparison result
converted to 0 or 1, the whole value then tested against zero. -/
def dtorCond (qmask push pop : Nat) : Bool :=
  ((pop &&& (if qmask ≠ push then 1 else 0)) &&& qmask) ≠ 0

/-- The destructor loop as written: while the condition holds, destroy the
slot at m_popIndex & Q_MASK and increment m_popIndex.  Returns the list of
slot indices destroyed, in order; fuel bounds the iteration count. -/
def dtorLoop (qmask push : Nat) : Nat → Nat → List Nat
  | 0, _ => []
  | fuel + 1, pop =>
    if dtorCond qmask push pop then
      (pop &&& qmask) :: dtorLoop qmask push fuel (pop + 1)
    else []

/-- Following the words of the spec for comparison: a correct destructor
destroys exactly one slot for each ticket t from pop commit (exclusive upper
bound push commit), at index t & Q_MASK.  The first argument after the mask
is the number of live tickets, the second the first live ticket. -/
def intendedDtorSlots (qmask : Nat) : Nat → Nat → List Nat
  | 0, _ => []
  | k + 1, pop => (pop &&& qmask) :: intendedDtorSlots qmask k (pop + 1)

end atomic_blocking_queue_impl

/-- State of atomic_blocking_queue: the two gating fast_semaphores, the
FIFO contents held by the inner ticketed queue_impl, and the m_done flag. -/
structure atomic_blocking_queue (T : Type) where
  m_openSlots : fast_semaphore
  m_fullSlots : fast_semaphore
  queue_impl : List T
  m_done : Bool
deriving DecidableEq, Repr

namespace atomic_blocking_queue

/-- pop: gate on the full-slots wait; a false wait result returns false at
once; a true result has queue_impl deliver its front element, then the
open-slots signal is posted and pop returns true.  none is a pop blocked
forever inside the wait.  A true wait result with an empty queue_impl (only
possible when the signal miscounts the contents) delivers nothing. -/
def pop (s : atomic_blocking_queue T) : Option (Bool × Option T × atomic_blocking_queue T) :=
  match s.m_fullSlots.wait with
  | none => none
  | some (false, fs) => some (false, none, { s with m_fullSlots := fs })
  | some (true, fs) =>
    match s.queue_impl with
    | [] => some (true, none,
        { s with m_fullSlots := fs, m_openSlots := s.m_openSlots.post })
    | x :: rest => some (true, some x,
        { s with m_fullSlots := fs, queue_impl := rest,
                 m_openSlots := s.m_openSlots.post })

/-- done: set m_done and close both signals. -/
def done (s : atomic_blocking_queue T) : atomic_blocking_queue T :=
  { s with m_done := true, m_openSlots := s.m_openSlots.done,
           m_fullSlots := s.m_fullSlots.done }

/-- The closure condition pop can observe: the done flag of the inner kernel
semaphore of the full-slots signal, set exactly by done. -/
def closed (s : atomic_blocking_queue T) : Bool :=
  s.m_fullSlots.m_semaphore.m_done

end atomic_blocking_queue

namespace thread_pool

/-- The stealing fan-out constant of the pool. -/
def K : Nat := 2

/-- The scan loop of enqueue_work: starting at attempt n with rem attempts
remaining, return the index of the first attempt whose try_push succeeds,
where ok gives the outcome of each attempt. -/
def tryLoop (ok : Nat → Bool) : Nat → Nat → Option Nat
  | _, 0 => none
  | n, rem + 1 => if ok n then some n else tryLoop ok (n + 1) rem

/-- The destination of one enqueue_work call: accepted by try_push on a
queue, or handed to the blocking push of a queue. -/
inductive EnqueueDest
  | tried (q : Nat)
  | pushedBlocking (q : Nat)
deriving DecidableEq, Repr

/-- enqueue_work over m_count queues: read i from the shared index and
increment the index, attempt try_push on queues (i + n) % m_count for n
from 0 below m_count * K, returning at the first success, and otherwise
hand the work to the blocking push of queue i % m_count.  ok n is the
outcome of the nth try_push attempt.  The result is the new shared index
together with the destination. -/
def enqueue_work (m_count : Nat) (m_index : Nat) (ok : Nat → Bool) :
    Nat × EnqueueDest :=
  (m_index + 1,
    match tryLoop ok 0 (m_count * K) with
    | some n => EnqueueDest.tried ((m_index + n) % m_count)
    | none => EnqueueDest.pushedBlocking (m_index % m_count))

end thread_pool

namespace LockFreeQueue

/-- One reservation row of the per-thread side table: none models the
ULONG_MAX sentinel, some r an in-flight ticket. -/
abbrev Row := Option Nat

/-- State of the ring queue reservation protocol for P producer and C
consumer threads: the shared tickets head_ and tail_, the cached bounds
last_head_ and last_tail_, and the per-thread head and tail rows. -/
structure State (P C : Nat) where
  head : Nat
  tail : Nat
  last_head : Nat
  last_tail : Nat
  prod : Fin P → Row
  cons : Fin C → Row

/-- The scan of a row list as in the update loops of push and pop: start
from the freshly loaded shared ticket and fold the rows with min; a sentinel
row never lowers the bound. -/
def scanMin (start : Nat) (rows : List Row) : Nat :=
  rows.foldl (fun m row => match row with | some r => min m r | none => m) start

/-- The consumer rows as a list, in table order. -/
def consRows {P C : Nat} (s : State P C) : List Row := (List.finRange C).map s.cons

/-- The producer rows as a list, in table order. -/
def prodRows {P C : Nat} (s : State P C) : List Row := (List.finRange P).map s.prod

/-- Effect of the reservation phase of push by producer i: publish the
current head in the thread row, then fetch_add head by one. -/
def pushStart {P C : Nat} (s : State P C) (i : Fin P) : State P C :=
  { s with head := s.head + 1, prod := Function.update s.prod i (some s.head) }

/-- Effect of one recomputation of last_tail_ in the capacity-check loop of
push. -/
def pushScan {P C : Nat} (s : State P C) : State P C :=
  { s with last_tail := scanMin s.tail (consRows s) }

/-- Effect of the write phase of push: construct the element in the slot and
publish the sentinel, releasing the reservation. -/
def pushFinish {P C : Nat} (s : State P C) (i : Fin P) : State P C :=
  { s with prod := Function.update s.prod i none }

/-- Effect of the reservation phase of pop by consumer j. -/
def popStart {P C : Nat} (s : State P C) (j : Fin C) : State P C :=
  { s with tail := s.tail + 1, cons := Function.update s.cons j (some s.tail) }

/-- Effect of one recomputation of last_head_ in the wait loop of pop. -/
def popScan {P C : Nat} (s : State P C) : State P C :=
  { s with last_head := scanMin s.head (prodRows s) }

/-- Effect of the read phase of pop: move the element out, destroy the slot
and publish the sentinel. -/
def popFinish {P C : Nat} (s : State P C) (j : Fin C) : State P C :=
  { s with cons := Function.update s.cons j none }

/-- One interleaved step of the push and pop protocols on the ring of
capacity Q_SIZE.  A producer may write and release only when its ticket
passes the capacity check against the current last_tail_; a consumer only
when its ticket is below the current last_head_. -/
inductive Step (Q_SIZE : Nat) {P C : Nat} : State P C → State P C → Prop
  | pushStart (s : State P C) (i : Fin P) :
      s.prod i = none → Step Q_SIZE s (pushStart s i)
  | pushScan (s : State P C) : Step Q_SIZE s (pushScan s)
  | pushFinish (s : State P C) (i : Fin P) (r : Nat) :
      s.prod i = some r → r < s.last_tail + Q_SIZE → Step Q_SIZE s (pushFinish s i)
  | popStart (s : State P C) (j : Fin C) :
      s.cons j = none → Step Q_SIZE s (popStart s j)
  | popScan (s : State P C) : Step Q_SIZE s (popScan s)
  | popFinish (s : State P C) (j : Fin C) (r : Nat) :
      s.cons j = some r → r < s.last_head → Step Q_SIZE s (popFinish s j)

/-- The construction-time state: tickets and bounds zero, every row the
sentinel. -/
def start (P C : Nat) : State P C :=
  { head := 0, tail := 0, last_head := 0, last_tail := 0,
    prod := fun _ => none, cons := fun _ => none }

/-- Reachability by interleavings of push and pop steps of the given
thread sets. -/
inductive Reach (Q_SIZE : Nat) {P C : Nat} : State P C → Prop
  | start : Reach Q_SIZE (start P C)
  | step {s t : State P C} : Reach Q_SIZE s → Step Q_SIZE s t → Reach Q_SIZE t

/-- Rows observed mid-push on a ring of capacity four: five producers have
each executed the head fetch_add and stand in the capacity-check loop. -/
def fiveReservations : State 5 1 :=
  pushStart (pushStart (pushStart (pushStart (pushStart (start 5 1) 0) 1) 2) 3) 4

/-- The inductive invariant of the reservation protocol: the cached
last_tail_ never exceeds the consumer ticket, never exceeds any in-flight
consumer reservation, and every issued producer ticket at distance at least
Q_SIZE above last_tail_ is still in flight (its writer has not passed the
capacity check). -/
def Inv (Q_SIZE : Nat) {P C : Nat} (s : State P C) : Prop :=
  s.last_tail ≤ s.tail ∧
  (∀ (j : Fin C) (r : Nat), s.cons j = some r → s.last_tail ≤ r) ∧
  (∀ k : Nat, s.last_tail + Q_SIZE ≤ k → k < s.head → ∃ i : Fin P, s.prod i = some k)

/-- The constructor arguments of LockFreeQueue: the producer and consumer
thread counts. -/
structure Config where
  n_producers : Nat
  n_consumers : Nat
deriving DecidableEq, Repr

/-- The number of per-thread rows the constructor allocates. -/
def allocRows (cfg : Config) : Nat := max cfg.n_consumers cfg.n_producers

/-- The assertion in thr_pos: the calling thread id lies below the maximum
of the consumer and producer counts. -/
def thrPosAssert (cfg : Config) (tid : Nat) : Bool :=
  decide (tid < max cfg.n_consumers cfg.n_producers)

/-- thr_pos: the side-table row of the calling thread, defined exactly when
the row index is in bounds of the allocated table. -/
def thr_pos (cfg : Config) (tid : Nat) : Option (Fin (allocRows cfg)) :=
  if h : tid < allocRows cfg then some ⟨tid, h⟩ else none

end LockFreeQueue

namespace thread_pool

/-- One queue of the pool as seen through the queue contract: the closed
flag and the FIFO of task ids. -/
structure QueueM where
  closed : Bool
  items : List Nat
deriving DecidableEq, Repr

/-- Pool-level state for the exactly-once law, with the queues abstracted by
the queue contract.  Tasks are numbered in submission order; a task
submitted by enqueue_work or enqueue_task is pending until its push lands on
a queue, queued until a worker pops it, and executed once the popping worker
has run it.  A pending task whose fall-through blocking push reaches a queue
already closed is dropped: the shutdown-before-dequeue race. -/
structure PoolSt where
  nextTask : Nat
  pending : List Nat
  queues : List QueueM
  executed : List Nat
  dropped : List Nat
  shutdown : Bool
deriving DecidableEq, Repr

/-- One pool-level step: a submission before shutdown, a push landing on an
open queue, the race dropping an in-flight push on a closed queue, the start
of destruction, the destructor closing one queue, and a worker popping the
front task of a queue and running it. -/
inductive PoolStep : PoolSt → PoolSt → Prop
  | submit (s : PoolSt) : s.shutdown = false →
      PoolStep s { s with nextTask := s.nextTask + 1,
                          pending := s.pending ++ [s.nextTask] }
  | land (s : PoolSt) (t q : Nat) (qm : QueueM) :
      t ∈ s.pending → s.queues[q]? = some qm → qm.closed = false →
      PoolStep s { s with pending := s.pending.erase t,
                          queues := s.queues.set q { closed := false, items := qm.items ++ [t] } }
  | landDrop (s : PoolSt) (t q : Nat) (qm : QueueM) :
      t ∈ s.pending → s.queues[q]? = some qm → qm.closed = true →
      PoolStep s { s with pending := s.pending.erase t,
                          dropped := s.dropped ++ [t] }
  | beginShutdown (s : PoolSt) : PoolStep s { s with shutdown := true }
  | closeQueue (s : PoolSt) (q : Nat) (qm : QueueM) : s.shutdown = true →
      s.queues[q]? = some qm →
      PoolStep s { s with queues := s.queues.set q { closed := true, items := qm.items } }
  | popExec (s : PoolSt) (q : Nat) (qm : QueueM) (t : Nat) (rest : List Nat) :
      s.queues[q]? = some qm → qm.items = t :: rest →
      PoolStep s { s with queues := s.queues.set q { closed := qm.closed, items := rest },
                          executed := s.executed ++ [t] }

/-- The pool start state with nq empty open queues and no tasks. -/
def poolInit (nq : Nat) : PoolSt :=
  { nextTask := 0, pending := [],
    queues := List.replicate nq { closed := false, items := [] },
    executed := [], dropped := [], shutdown := false }

/-- Pool states reachable from the start state. -/
inductive PoolReach (nq : Nat) : PoolSt → Prop
  | init : PoolReach nq (poolInit nq)
  | step {s t : PoolSt} : PoolReach nq s → PoolStep s t → PoolReach nq t

/-- Occurrences of task t across the queues of the pool. -/
def qCount (t : Nat) (l : List QueueM) : Nat :=
  (l.map (fun qm => qm.items.count t)).sum

/-- The conservation invariant: each task id below nextTask sits in exactly
one place (pending, some queue, executed, or dropped); ids not yet issued
appear nowhere. -/
def PoolInv (s : PoolSt) : Prop :=
  ∀ t : Nat,
    s.pending.count t + qCount t s.queues + s.executed.count t + s.dropped.count t
      = if t < s.nextTask then 1 else 0

/-- A drained, joined pool after one full run over one queue: one task was
submitted, landed, executed; then shutdown closed the queue. -/
def poolDemo : PoolSt :=
  { nextTask := 1, pending := [], queues := [{ closed := true, items := [] }],
    executed := [0], dropped := [], shutdown := true }

end thread_pool

/-- Concrete blocking_queue used to instantiate the pop contract: closed and
empty. -/
def bqDemo : blocking_queue Nat := { m_queue := [], m_done := true }

/-- Concrete atomic_blocking_queue used to instantiate the pop contract: one
committed element, full-slots counter one, open and not closed. -/
def abqDemo : atomic_blocking_queue Nat :=
  { m_openSlots := { m_count := 0, m_semaphore := { m_count := 0, m_done := false } },
    m_fullSlots := { m_count := 1, m_semaphore := { m_count := 0, m_done := false } },
    queue_impl := [7], m_done := false }

/-- The state abqDemo reaches after its pop delivers the element. -/
def abqDemoAfter : atomic_blocking_queue Nat :=
  { m_openSlots := { m_count := 1, m_semaphore := { m_count := 0, m_done := false } },
    m_fullSlots := { m_count := 0, m_semaphore := { m_count := 0, m_done := false } },
    queue_impl := [], m_done := false }

/-- Concrete fixed_blocking_queue used to instantiate the exception-safety
law: capacity four, empty, all slots open. -/
def fbqDemo : fixed_blocking_queue Nat :=
  { m_size := 4, m_pushIndex := 0, m_popIndex := 0, m_count := 0,
    m_data := [none, none, none, none],
    m_openSlots := { m_count := 4, m_done := false },
    m_fullSlots := { m_count := 0, m_done := false } }

theorem semRunInv_foldl (ops : List SigOp) :
    ∀ (c P W : Nat) (s : semRunState), semRunInv c P W s →
      semRunInv c (P + nPosts ops) (W + nWaits ops) (ops.foldl semRunStep s) := by
  induction ops with
  | nil => intro c P W s h; simpa [nPosts, nWaits] using h
  | cons op rest ih =>
    intro c P W s h
    cases op with
    | post =>
      have step : semRunInv c (P + 1) W (semRunStep s SigOp.post) := by
        obtain ⟨m, w, v⟩ := s
        obtain ⟨h1, h2, h3⟩ := h
        simp only [semRunInv, semRunStep] at *
        split_ifs <;> simp_all <;> omega
      have := ih c (P + 1) W _ step
      simpa [List.foldl, nPosts, nWaits, Nat.add_assoc, Nat.add_comm, Nat.add_left_comm] using this
    | wait =>
      have step : semRunInv c P (W + 1) (semRunStep s SigOp.wait) := by
        obtain ⟨m, w, v⟩ := s
        obtain ⟨h1, h2, h3⟩ := h
        simp only [semRunInv, semRunStep] at *
        split_ifs <;> simp_all <;> omega
      have := ih c P (W + 1) _ step
      simpa [List.foldl, nPosts, nWaits, Nat.add_assoc, Nat.add_comm, Nat.add_left_comm] using this

theorem fastRunInv_foldl (ops : List SigOp) :
    ∀ (c P W : Nat) (s : fastRunState), fastRunInv c P W s →
      fastRunInv c (P + nPosts ops) (W + nWaits ops) (ops.foldl fastRunStep s) := by
  induction ops with
  | nil => intro c P W s h; simpa [nPosts, nWaits] using h
  | cons op rest ih =>
    intro c P W s h
    cases op with
    | post =>
      have step : fastRunInv c (P + 1) W (fastRunStep s SigOp.post) := by
        obtain ⟨m, ic, iw, v⟩ := s
        obtain ⟨h1, h2, h3, h4⟩ := h
        simp only [fastRunInv, fastRunStep] at *
        split_ifs <;> simp_all <;> omega
      have := ih c (P + 1) W _ step
      simpa [List.foldl, nPosts, nWaits, Nat.add_assoc, Nat.add_comm, Nat.add_left_comm] using this
    | wait =>
      have step : fastRunInv c P (W + 1) (fastRunStep s SigOp.wait) := by
        obtain ⟨m, ic, iw, v⟩ := s
        obtain ⟨h1, h2, h3, h4⟩ := h
        simp only [fastRunInv, fastRunStep] at *
        split_ifs <;> simp_all <;> omega
      have := ih c P (W + 1) _ step
      simpa [List.foldl, nPosts, nWaits, Nat.add_assoc, Nat.add_comm, Nat.add_left_comm] using this

/-- C2: for every sequence of post operations interleaved with wait
operations on a counting signal (plain semaphore or fast_semaphore) created
with initial count c, with no close in between, the number of wait calls
that return true equals min (c + P) W where P and W are the numbers of posts
and waits in the sequence. -/
theorem C2_signal_counting (c : Nat) (ops : List SigOp) :
    (semRunOps c ops).served = min (c + nPosts ops) (nWaits ops) ∧
    (fastRunOps c ops).served = min (c + nPosts ops) (nWaits ops) := by
  constructor
  · have h0 : semRunInv c 0 0 { m_count := c, waiting := 0, served := 0 } := by
      simp [semRunInv]
    have h := semRunInv_foldl ops c 0 0 _ h0
    obtain ⟨h1, h2, h3⟩ := h
    simp only [Nat.zero_add] at h1 h2
    unfold semRunOps
    omega
  · have h0 : fastRunInv c 0 0 { m_count := (c : Int), innerCount := 0, innerWaiting := 0, served := 0 } := by
      simp [fastRunInv]
    have h := fastRunInv_foldl ops c 0 0 _ h0
    obtain ⟨h1, h2, h3, h4⟩ := h
    simp only [Nat.zero_add] at h1 h3 h4
    unfold fastRunOps
    omega

/-- C3 as stated is false on the code: from a semaphore closed with counter
zero, a post raises the counter to one and the next wait returns true,
consuming it; likewise for fast_semaphore, whose tryWait fast path never
consults the closed flag.  The claim says that wait must still return
false. -/
theorem C3_counterexample :
    (semaphore.mk 0 false).done.post.wait = some (true, semaphore.mk 0 true) ∧
    (fast_semaphore.mk 0 (semaphore.mk 0 false)).done.post.wait
      = some (true, fast_semaphore.mk 0 (semaphore.mk 0 true)) := by
  decide

/-- C3 amended: after close with the counter zero, a subsequent post is not
lost; it increments the counter and the next wait call returns true and
consumes it, restoring the state at the post.  This holds for the plain
semaphore and for fast_semaphore. -/
theorem C3_amended (s : semaphore) (f : fast_semaphore)
    (hs : s.m_done = true) (hc : s.m_count = 0)
    (hf : f.m_semaphore.m_done = true) (hfc : f.m_count = 0) :
    s.post.wait = some (true, s) ∧ f.post.wait = some (true, f) := by
  obtain ⟨sc, sd⟩ := s
  obtain ⟨fc, fi⟩ := f
  simp_all [semaphore.post, semaphore.wait, fast_semaphore.post, fast_semaphore.wait]

theorem C3_amended_witness :
    (semaphore.mk 0 true).post.wait = some (true, semaphore.mk 0 true) ∧
    (fast_semaphore.mk 0 (semaphore.mk 0 true)).post.wait
      = some (true, fast_semaphore.mk 0 (semaphore.mk 0 true)) :=
  C3_amended (semaphore.mk 0 true) (fast_semaphore.mk 0 (semaphore.mk 0 true))
    rfl rfl rfl rfl

/-- C4: for every timeout t and every hybrid-signal state,
fast_semaphore.wait_for t is the same function as tryWait: it returns true
and decrements the counter exactly when the counter is strictly positive,
it never changes the inner kernel semaphore, and otherwise it leaves the
counter unchanged and returns false. -/
theorem C4_wait_for_is_tryWait (t : Nat) (s : fast_semaphore) :
    fast_semaphore.wait_for t s = fast_semaphore.tryWait s ∧
    ((fast_semaphore.tryWait s).1 = true ↔ 0 < s.m_count) ∧
    (fast_semaphore.tryWait s).2.m_semaphore = s.m_semaphore ∧
    (fast_semaphore.tryWait s).2.m_count
      = (if 0 < s.m_count then s.m_count - 1 else s.m_count) := by
  obtain ⟨c, inner⟩ := s
  refine ⟨rfl, ?_, ?_, ?_⟩ <;>
    simp only [fast_semaphore.tryWait] <;> split_ifs <;> simp_all

/-- C6: the destructor walks the loop condition with the C++ precedence of
the inequality over the bitwise and.  At Q_SIZE = 4 (Q_MASK = 3) with pop
commit 0 and push commit 2 the loop as written destroys no slot, while the
spec requires destroying tickets 0 and 1 at slots 0 and 1. -/
theorem C6_dtor_destroys_wrong_slots :
    atomic_blocking_queue_impl.dtorLoop 3 2 8 0 = [] ∧
    atomic_blocking_queue_impl.intendedDtorSlots 3 2 0 = [0, 1] ∧
    atomic_blocking_queue_impl.dtorLoop 3 2 8 0
      ≠ atomic_blocking_queue_impl.intendedDtorSlots 3 2 0 := by
  decide

/-- C9: when the element constructor throws inside fixed_blocking_queue push
or try_push after the open-slots gate was acquired, the catch block re-posts
the open-slots signal and rethrows; the resulting state equals the state
before the call: the open-slots count is restored and the push index, the
element count and the stored contents are unchanged. -/
theorem C9_push_exception_atomic (s : fixed_blocking_queue Nat) (item : Nat)
    (h : 0 < s.m_openSlots.m_count) :
    fixed_blocking_queue.push s item true = some (Except.error s) ∧
    fixed_blocking_queue.try_push s item true = Except.error s := by
  obtain ⟨sz, pi, qi, cnt, data, ⟨oc, od⟩, fs⟩ := s
  simp only [fixed_blocking_queue.push, fixed_blocking_queue.try_push,
    semaphore.wait, semaphore.wait_for, semaphore.post] at *
  have hoc : oc ≠ 0 := by omega
  have hoc2 : oc - 1 + 1 = oc := by omega
  simp [hoc, hoc2]

theorem C9_push_exception_atomic_witness :
    fixed_blocking_queue.push fbqDemo 5 true = some (Except.error fbqDemo) ∧
    fixed_blocking_queue.try_push fbqDemo 5 true = Except.error fbqDemo :=
  C9_push_exception_atomic fbqDemo 5 (by decide)

/-- C10: on entry to push and pop, thr_pos asserts that the calling thread
id is below max(n_producers, n_consumers); under the precondition that the
id lies in that range, the assertion passes and the row access lands inside
the allocated side table of max(n_producers, n_consumers) rows. -/
theorem C10_thr_pos_in_bounds (cfg : LockFreeQueue.Config) (tid : Nat)
    (h : tid < max cfg.n_producers cfg.n_consumers) :
    LockFreeQueue.thrPosAssert cfg tid = true ∧
    ∃ hb : tid < LockFreeQueue.allocRows cfg,
      LockFreeQueue.thr_pos cfg tid = some ⟨tid, hb⟩ := by
  have hb : tid < LockFreeQueue.allocRows cfg := by
    simp only [LockFreeQueue.allocRows]
    omega
  refine ⟨by simp [LockFreeQueue.thrPosAssert]; omega, hb, ?_⟩
  simp [LockFreeQueue.thr_pos, hb]

theorem C10_thr_pos_in_bounds_witness :
    LockFreeQueue.thrPosAssert { n_producers := 1, n_consumers := 2 } 0 = true ∧
    ∃ hb : 0 < LockFreeQueue.allocRows { n_producers := 1, n_consumers := 2 },
      LockFreeQueue.thr_pos { n_producers := 1, n_consumers := 2 } 0 = some ⟨0, hb⟩ :=
  C10_thr_pos_in_bounds { n_producers := 1, n_consumers := 2 } 0 (by decide)

theorem tryLoop_eq_some (ok : Nat → Bool) :
    ∀ (rem a n : Nat), a ≤ n → n < a + rem → ok n = true →
      (∀ m, a ≤ m → m < n → ok m = false) →
      thread_pool.tryLoop ok a rem = some n := by
  intro rem
  induction rem with
  | zero => intro a n h1 h2 h3 h4; omega
  | succ rem ih =>
    intro a n h1 h2 h3 h4
    simp only [thread_pool.tryLoop]
    by_cases ha : a = n
    · subst ha; simp [h3]
    · have hfa : ok a = false := h4 a le_rfl (by omega)
      simp only [hfa, Bool.false_eq_true, if_false]
      exact ih (a + 1) n (by omega) (by omega) h3 (fun m hm1 hm2 => h4 m (by omega) hm2)

theorem tryLoop_eq_none (ok : Nat → Bool) :
    ∀ (rem a : Nat), (∀ m, a ≤ m → m < a + rem → ok m = false) →
      thread_pool.tryLoop ok a rem = none := by
  intro rem
  induction rem with
  | zero => intro a h; rfl
  | succ rem ih =>
    intro a h
    simp only [thread_pool.tryLoop]
    have hfa : ok a = false := h a le_rfl (by omega)
    simp only [hfa, Bool.false_eq_true, if_false]
    exact ih (a + 1) (fun m hm1 hm2 => h m (by omega) (by omega))

/-- C7: with fan-out constant K = 2, enqueue_work first takes i from the
shared index by fetch_add, then attempts try_push on queues (i + n) mod Q
for n from 0 below K times Q in that order, returning at the first success;
only when every attempt fails does it hand the work to the blocking push of
queue i mod Q. -/
theorem C7_enqueue_work_routing (m_count m_index : Nat) (ok : Nat → Bool) :
    thread_pool.K = 2 ∧
    (thread_pool.enqueue_work m_count m_index ok).1 = m_index + 1 ∧
    (∀ n, n < m_count * thread_pool.K → ok n = true →
      (∀ m, m < n → ok m = false) →
      (thread_pool.enqueue_work m_count m_index ok).2
        = thread_pool.EnqueueDest.tried ((m_index + n) % m_count)) ∧
    ((∀ n, n < m_count * thread_pool.K → ok n = false) →
      (thread_pool.enqueue_work m_count m_index ok).2
        = thread_pool.EnqueueDest.pushedBlocking (m_index % m_count)) := by
  refine ⟨rfl, rfl, ?_, ?_⟩
  · intro n hn hok hmin
    have hl : thread_pool.tryLoop ok 0 (m_count * thread_pool.K) = some n :=
      tryLoop_eq_some ok (m_count * thread_pool.K) 0 n (Nat.zero_le n) (by omega) hok
        (fun m hm1 hm2 => hmin m hm2)
    simp [thread_pool.enqueue_work, hl]
  · intro hall
    have hl : thread_pool.tryLoop ok 0 (m_count * thread_pool.K) = none :=
      tryLoop_eq_none ok (m_count * thread_pool.K) 0
        (fun m hm1 hm2 => hall m (by omega))
    simp [thread_pool.enqueue_work, hl]

theorem C7_enqueue_work_routing_witness :
    (thread_pool.enqueue_work 2 5 (fun n => decide (n = 1))).2
      = thread_pool.EnqueueDest.tried 0 ∧
    (thread_pool.enqueue_work 2 5 (fun _ => false)).2
      = thread_pool.EnqueueDest.pushedBlocking 1 := by
  constructor
  · exact (C7_enqueue_work_routing 2 5 (fun n => decide (n = 1))).2.2.1 1
      (by decide) (by decide) (by decide)
  · exact (C7_enqueue_work_routing 2 5 (fun _ => false)).2.2.2 (fun n hn => rfl)

/-- C8: for the blocking_queue and atomic_blocking_queue back-ends, pop
returns false exactly when the queue has been closed and holds no element to
deliver, and whenever pop returns true it removes and delivers exactly one
element, the front one.  For the atomic queue the statement is under the
accounting coupling of a quiescent queue: the full-slots counter equals the
number of committed elements and the inner kernel semaphore holds no banked
token. -/
theorem C8_pop_false_iff_closed_empty :
    (∀ (s : blocking_queue Nat) (b : Bool) (x : Option Nat) (u : blocking_queue Nat),
      blocking_queue.pop s = some (b, x, u) →
      ((b = false) ↔ (s.m_done = true ∧ s.m_queue = [])) ∧
      (b = true → ∃ y rest, s.m_queue = y :: rest ∧ x = some y ∧ u.m_queue = rest)) ∧
    (∀ (s : atomic_blocking_queue Nat),
      s.m_fullSlots.m_count = (s.queue_impl.length : Int) →
      s.m_fullSlots.m_semaphore.m_count = 0 →
      ∀ (b : Bool) (x : Option Nat) (u : atomic_blocking_queue Nat),
        atomic_blocking_queue.pop s = some (b, x, u) →
        ((b = false) ↔ (atomic_blocking_queue.closed s = true ∧ s.queue_impl = [])) ∧
        (b = true → ∃ y rest, s.queue_impl = y :: rest ∧ x = some y ∧ u.queue_impl = rest)) := by
  constructor
  · intro s b x u hpop
    simp only [blocking_queue.pop] at hpop
    cases hq : s.m_queue with
    | nil =>
      rw [hq] at hpop
      by_cases hd : s.m_done
      · simp [hd] at hpop
        obtain ⟨hb, hx, hu⟩ := hpop
        subst hb
        simp [hd, hq]
      · simp [hd] at hpop
    | cons y rest =>
      rw [hq] at hpop
      simp only [Option.some_inj, Prod.mk.injEq] at hpop
      obtain ⟨hb, hx, hu⟩ := hpop
      subst hb
      refine ⟨by simp, fun _ => ⟨y, rest, rfl, hx.symm, by rw [← hu]⟩⟩
  · intro s hcount hinner b x u hpop
    simp only [atomic_blocking_queue.pop, fast_semaphore.wait, semaphore.wait,
      hinner] at hpop
    by_cases hpos : 0 < s.m_fullSlots.m_count
    · have hne : s.queue_impl ≠ [] := by
        intro hnil
        rw [hnil] at hcount
        simp at hcount
        omega
      cases hq : s.queue_impl with
      | nil => exact absurd hq hne
      | cons y rest =>
        rw [hq] at hpop
        simp only [hpos, if_true, if_pos] at hpop
        simp only [Option.some_inj, Prod.mk.injEq] at hpop
        obtain ⟨hb, hx, hu⟩ := hpop
        subst hb
        refine ⟨by simp, fun _ => ⟨y, rest, rfl, hx.symm, by rw [← hu]⟩⟩
    · have hzero : s.m_fullSlots.m_count = 0 := by
        have hlen : (0 : Int) ≤ (s.queue_impl.length : Int) := by positivity
        omega
      have hnil : s.queue_impl = [] := by
        have : (s.queue_impl.length : Int) = 0 := by omega
        simpa using this
      simp only [hpos, if_false, if_neg, ite_self, Ne, not_true_eq_false] at hpop
      by_cases hd : s.m_fullSlots.m_semaphore.m_done
      · simp only [hd, if_true, if_pos, Option.some_inj, Prod.mk.injEq] at hpop
        obtain ⟨hb, hx, hu⟩ := hpop
        subst hb
        simp [atomic_blocking_queue.closed, hd, hnil]
      · simp [hd] at hpop

theorem C8_pop_false_iff_closed_empty_witness :
    ((false = false ↔ (bqDemo.m_done = true ∧ bqDemo.m_queue = [])) ∧
      (false = true → ∃ y rest, bqDemo.m_queue = y :: rest ∧
        (none : Option Nat) = some y ∧ bqDemo.m_queue = rest)) ∧
    ((true = false ↔ (atomic_blocking_queue.closed abqDemo = true ∧ abqDemo.queue_impl = [])) ∧
      (true = true → ∃ y rest, abqDemo.queue_impl = y :: rest ∧
        (some 7 : Option Nat) = some y ∧ abqDemoAfter.queue_impl = rest)) :=
  ⟨C8_pop_false_iff_closed_empty.1 bqDemo false none bqDemo (by decide),
   C8_pop_false_iff_closed_empty.2 abqDemo (by decide) (by decide) true (some 7)
     abqDemoAfter (by decide)⟩

theorem scanMin_le_start (rows : List LockFreeQueue.Row) :
    ∀ start : Nat, LockFreeQueue.scanMin start rows ≤ start := by
  induction rows with
  | nil => intro start; exact le_refl start
  | cons row rest ih =>
    intro start
    cases row with
    | none => exact ih start
    | some r =>
      have h : LockFreeQueue.scanMin start (some r :: rest)
          = LockFreeQueue.scanMin (min start r) rest := rfl
      rw [h]
      exact le_trans (ih (min start r)) (Nat.min_le_left _ _)

theorem scanMin_le_of_mem (rows : List LockFreeQueue.Row) :
    ∀ (start r : Nat), some r ∈ rows → LockFreeQueue.scanMin start rows ≤ r := by
  induction rows with
  | nil => intro start r h; simp at h
  | cons row rest ih =>
    intro start r h
    rcases List.mem_cons.mp h with heq | hmem
    · subst heq
      have h2 : LockFreeQueue.scanMin start (some r :: rest)
          = LockFreeQueue.scanMin (min start r) rest := rfl
      rw [h2]
      exact le_trans (scanMin_le_start rest (min start r)) (Nat.min_le_right _ _)
    · cases row with
      | none => exact ih start r hmem
      | some r2 => exact ih (min start r2) r hmem

theorem le_scanMin (rows : List LockFreeQueue.Row) :
    ∀ (a start : Nat), a ≤ start → (∀ r, some r ∈ rows → a ≤ r) →
      a ≤ LockFreeQueue.scanMin start rows := by
  induction rows with
  | nil => intro a start ha hr; exact ha
  | cons row rest ih =>
    intro a start ha hr
    cases row with
    | none => exact ih a start ha (fun r h => hr r (List.mem_cons_of_mem _ h))
    | some r2 =>
      have h2 : a ≤ min start r2 :=
        le_min ha (hr r2 (List.mem_cons_self _ _))
      exact ih a (min start r2) h2 (fun r h => hr r (List.mem_cons_of_mem _ h))

theorem consRows_mem {P C : Nat} (s : LockFreeQueue.State P C) (j : Fin C) (r : Nat)
    (h : s.cons j = some r) : some r ∈ LockFreeQueue.consRows s := by
  simp only [LockFreeQueue.consRows, List.mem_map]
  exact ⟨j, List.mem_finRange j, h⟩

theorem consRows_mem_inv {P C : Nat} (s : LockFreeQueue.State P C) (r : Nat)
    (h : some r ∈ LockFreeQueue.consRows s) : ∃ j, s.cons j = some r := by
  simp only [LockFreeQueue.consRows, List.mem_map] at h
  obtain ⟨j, _, hj⟩ := h
  exact ⟨j, hj⟩

theorem lfq_inv_step {Q P C : Nat} {s u : LockFreeQueue.State P C}
    (hI : LockFreeQueue.Inv Q s) (hs : LockFreeQueue.Step Q s u) :
    LockFreeQueue.Inv Q u := by
  obtain ⟨h1, h2, h3⟩ := hI
  cases hs with
  | pushStart i hi =>
    refine ⟨h1, h2, ?_⟩
    intro k hk1 hk2
    simp only [LockFreeQueue.pushStart] at hk1 hk2 ⊢
    by_cases hk : k = s.head
    · exact ⟨i, by simp [Function.update_apply, hk]⟩
    · obtain ⟨i2, hi2⟩ := h3 k hk1 (by omega)
      have hne : i2 ≠ i := by
        intro he; rw [he, hi] at hi2; exact Option.noConfusion hi2
      exact ⟨i2, by simpa [Function.update_apply, hne] using hi2⟩
  | pushScan =>
    have hmono : s.last_tail ≤ LockFreeQueue.scanMin s.tail (LockFreeQueue.consRows s) :=
      le_scanMin _ _ _ h1
        (fun r hr => by obtain ⟨j, hj⟩ := consRows_mem_inv s r hr; exact h2 j r hj)
    refine ⟨?_, ?_, ?_⟩
    · exact scanMin_le_start _ _
    · intro j r hj
      exact scanMin_le_of_mem _ _ _ (consRows_mem s j r hj)
    · intro k hk1 hk2
      simp only [LockFreeQueue.pushScan] at hk1 hk2 ⊢
      exact h3 k (by omega) hk2
  | pushFinish i r hi hr =>
    refine ⟨h1, h2, ?_⟩
    intro k hk1 hk2
    simp only [LockFreeQueue.pushFinish] at hk1 hk2 ⊢
    obtain ⟨i2, hi2⟩ := h3 k hk1 hk2
    have hne : i2 ≠ i := by
      intro he
      rw [he, hi] at hi2
      have : r = k := Option.some_inj.mp hi2
      omega
    exact ⟨i2, by simpa [Function.update_apply, hne] using hi2⟩
  | popStart j hj =>
    refine ⟨?_, ?_, ?_⟩
    · simp only [LockFreeQueue.popStart]
      omega
    · intro j2 r hj2
      simp only [LockFreeQueue.popStart, Function.update_apply] at hj2 ⊢
      by_cases he : j2 = j
      · rw [if_pos he] at hj2
        have : s.tail = r := Option.some_inj.mp hj2
        omega
      · rw [if_neg he] at hj2
        exact h2 j2 r hj2
    · exact h3
  | popScan => exact ⟨h1, h2, h3⟩
  | popFinish j r hj hr =>
    refine ⟨h1, ?_, h3⟩
    intro j2 r2 hj2
    simp only [LockFreeQueue.popFinish, Function.update_apply] at hj2 ⊢
    by_cases he : j2 = j
    · rw [if_pos he] at hj2
      exact Option.noConfusion hj2
    · rw [if_neg he] at hj2
      exact h2 j2 r2 hj2

theorem lfq_inv_reach {Q P C : Nat} {s : LockFreeQueue.State P C}
    (h : LockFreeQueue.Reach Q s) : LockFreeQueue.Inv Q s := by
  induction h with
  | start =>
    refine ⟨le_refl 0, ?_, ?_⟩
    · intro j r hj
      exact Option.noConfusion hj
    · intro k hk1 hk2
      exact absurd hk2 (by simp [LockFreeQueue.start])
  | step hr hs ih => exact lfq_inv_step ih hs

/-- C5 fails as stated: with a ring of capacity Q_SIZE = 4, five producers
that have each passed the head fetch_add and stand in the capacity-check
loop yield a reachable state with head 5 and tail 0, so an observer loading
both shared tickets sees head - tail exceed the capacity. -/
theorem C5_counterexample :
    LockFreeQueue.Reach 4 LockFreeQueue.fiveReservations ∧
    LockFreeQueue.fiveReservations.head = 5 ∧
    LockFreeQueue.fiveReservations.tail = 0 ∧
    ¬(LockFreeQueue.fiveReservations.head - LockFreeQueue.fiveReservations.tail ≤ 4) := by
  refine ⟨?_, by decide, by decide, by decide⟩
  have h0 : LockFreeQueue.Reach 4 (LockFreeQueue.start 5 1) := LockFreeQueue.Reach.start
  have h1 := h0.step (LockFreeQueue.Step.pushStart _ 0 (by decide))
  have h2 := h1.step (LockFreeQueue.Step.pushStart _ 1 (by decide))
  have h3 := h2.step (LockFreeQueue.Step.pushStart _ 2 (by decide))
  have h4 := h3.step (LockFreeQueue.Step.pushStart _ 3 (by decide))
  exact h4.step (LockFreeQueue.Step.pushStart _ 4 (by decide))

/-- C5 amended: the bound head - tail at most Q_SIZE holds in every
reachable state in which no producer holds an in-flight reservation (all
producer rows are the sentinel); while producers stand between the head
fetch_add and the slot write the difference can exceed Q_SIZE, as the
counterexample shows. -/
theorem C5_amended_head_tail_bound (Q_SIZE P C : Nat) (s : LockFreeQueue.State P C)
    (h : LockFreeQueue.Reach Q_SIZE s) (hq : ∀ i : Fin P, s.prod i = none) :
    s.head ≤ s.tail + Q_SIZE := by
  obtain ⟨h1, h2, h3⟩ := lfq_inv_reach h
  by_contra hc
  push_neg at hc
  obtain ⟨i, hi⟩ := h3 (s.tail + Q_SIZE) (by omega) (by omega)
  rw [hq i] at hi
  exact Option.noConfusion hi

theorem C5_amended_head_tail_bound_witness :
    (LockFreeQueue.start 5 1).head ≤ (LockFreeQueue.start 5 1).tail + 4 :=
  C5_amended_head_tail_bound 4 5 1 (LockFreeQueue.start 5 1)
    LockFreeQueue.Reach.start (fun i => rfl)

theorem qCount_cons (t : Nat) (qm : thread_pool.QueueM) (l : List thread_pool.QueueM) :
    thread_pool.qCount t (qm :: l) = qm.items.count t + thread_pool.qCount t l := by
  simp [thread_pool.qCount]

theorem qCount_set (t : Nat) :
    ∀ (l : List thread_pool.QueueM) (q : Nat) (qm v : thread_pool.QueueM),
      l[q]? = some qm →
      thread_pool.qCount t (l.set q v) + qm.items.count t
        = thread_pool.qCount t l + v.items.count t := by
  intro l
  induction l with
  | nil => intro q qm v hq; simp at hq
  | cons a as ih =>
    intro q qm v hq
    cases q with
    | zero =>
      simp only [List.getElem?_cons_zero, Option.some_inj] at hq
      subst hq
      rw [List.set_cons_zero, qCount_cons, qCount_cons]
      omega
    | succ q =>
      simp only [List.getElem?_cons_succ] at hq
      have := ih q qm v hq
      rw [List.set_cons_succ, qCount_cons, qCount_cons]
      omega

theorem qCount_zero (t : Nat) :
    ∀ l : List thread_pool.QueueM, (∀ qm ∈ l, qm.items = []) →
      thread_pool.qCount t l = 0 := by
  intro l
  induction l with
  | nil => intro hl; rfl
  | cons a as ih =>
    intro hl
    rw [qCount_cons, hl a (List.mem_cons_self _ _), ih (fun qm hq => hl qm (List.mem_cons_of_mem _ hq))]
    rfl

theorem poolInv_step {s u : thread_pool.PoolSt}
    (h : thread_pool.PoolInv s) (hs : thread_pool.PoolStep s u) :
    thread_pool.PoolInv u := by
  cases hs with
  | submit hsd =>
    intro t
    have ht := h t
    show (s.pending ++ [s.nextTask]).count t + thread_pool.qCount t s.queues
        + s.executed.count t + s.dropped.count t = if t < s.nextTask + 1 then 1 else 0
    rw [List.count_append, List.count_singleton']
    split_ifs at ht ⊢ <;> omega
  | land t0 q qm hmem hq hcl =>
    intro t
    have ht := h t
    have hset := qCount_set t s.queues q qm { closed := false, items := qm.items ++ [t0] } hq
    simp only [List.count_append, List.count_singleton'] at hset
    show (s.pending.erase t0).count t
        + thread_pool.qCount t (s.queues.set q { closed := false, items := qm.items ++ [t0] })
        + s.executed.count t + s.dropped.count t = if t < s.nextTask then 1 else 0
    by_cases he : t = t0
    · subst he
      have h1 : (s.pending.erase t).count t = s.pending.count t - 1 :=
        List.count_erase_self t s.pending
      have h2 : 0 < s.pending.count t := List.count_pos_iff.mpr hmem
      rw [h1]
      rw [if_pos rfl] at hset
      split_ifs at ht ⊢ <;> omega
    · have h1 : (s.pending.erase t0).count t = s.pending.count t :=
        List.count_erase_of_ne he s.pending
      rw [h1]
      rw [if_neg (Ne.symm he)] at hset
      split_ifs at ht ⊢ <;> omega
  | landDrop t0 q qm hmem hq hcl =>
    intro t
    have ht := h t
    show (s.pending.erase t0).count t + thread_pool.qCount t s.queues
        + s.executed.count t + (s.dropped ++ [t0]).count t = if t < s.nextTask then 1 else 0
    rw [List.count_append, List.count_singleton']
    by_cases he : t = t0
    · subst he
      have h1 : (s.pending.erase t).count t = s.pending.count t - 1 :=
        List.count_erase_self t s.pending
      have h2 : 0 < s.pending.count t := List.count_pos_iff.mpr hmem
      rw [h1, if_pos rfl]
      split_ifs at ht ⊢ <;> omega
    · have h1 : (s.pending.erase t0).count t = s.pending.count t :=
        List.count_erase_of_ne he s.pending
      rw [h1, if_neg (Ne.symm he)]
      split_ifs at ht ⊢ <;> omega
  | beginShutdown => exact h
  | closeQueue q qm hsd hq =>
    intro t
    have ht := h t
    have hset := qCount_set t s.queues q qm { closed := true, items := qm.items } hq
    dsimp only at hset
    show s.pending.count t
        + thread_pool.qCount t (s.queues.set q { closed := true, items := qm.items })
        + s.executed.count t + s.dropped.count t = if t < s.nextTask then 1 else 0
    split_ifs at ht ⊢ <;> omega
  | popExec q qm t0 rest hq hitems =>
    intro t
    have ht := h t
    have hset := qCount_set t s.queues q qm { closed := qm.closed, items := rest } hq
    dsimp only at hset
    rw [hitems, List.count_cons] at hset
    simp only [beq_iff_eq] at hset
    show s.pending.count t
        + thread_pool.qCount t (s.queues.set q { closed := qm.closed, items := rest })
        + (s.executed ++ [t0]).count t + s.dropped.count t = if t < s.nextTask then 1 else 0
    rw [List.count_append, List.count_singleton']
    split_ifs at ht hset ⊢ <;> omega

theorem poolInv_reach {nq : Nat} {s : thread_pool.PoolSt}
    (h : thread_pool.PoolReach nq s) : thread_pool.PoolInv s := by
  induction h with
  | init =>
    intro t
    have hz : thread_pool.qCount t
        (List.replicate nq { closed := false, items := [] }) = 0 :=
      qCount_zero t _ (fun qm hqm => by rw [List.eq_of_mem_replicate hqm])
    show ([] : List Nat).count t
        + thread_pool.qCount t (List.replicate nq { closed := false, items := [] })
        + ([] : List Nat).count t + ([] : List Nat).count t = if t < 0 then 1 else 0
    simp [hz]
  | step hr hs ih => exact poolInv_step ih hs

/-- C1: at pool granularity, with the queues abstracted by the queue
contract, every reachable pool state has each task executed at most once;
and in a drained, joined state (no submission in flight, every queue empty,
as after the destructor) every task submitted before shutdown that was not
lost to the shutdown-before-dequeue drop race has been executed exactly
once. -/
theorem C1_pool_tasks_executed_exactly_once (nq : Nat) (s : thread_pool.PoolSt)
    (h : thread_pool.PoolReach nq s) :
    (∀ t, s.executed.count t ≤ 1) ∧
    (s.pending = [] → (∀ qm ∈ s.queues, qm.items = []) →
      ∀ t, t < s.nextTask → s.dropped.count t = 0 → s.executed.count t = 1) := by
  have hI := poolInv_reach h
  constructor
  · intro t
    have ht := hI t
    split_ifs at ht <;> omega
  · intro hp hq t hlt hd
    have ht := hI t
    rw [hp] at ht
    have hqc := qCount_zero t s.queues hq
    rw [if_pos hlt] at ht
    simp only [List.count_nil] at ht
    omega

theorem C1_pool_tasks_executed_exactly_once_witness :
    thread_pool.poolDemo.executed.count 0 = 1 := by
  have hreach : thread_pool.PoolReach 1 thread_pool.poolDemo := by
    have h0 : thread_pool.PoolReach 1 (thread_pool.poolInit 1) := thread_pool.PoolReach.init
    have h1 := h0.step (thread_pool.PoolStep.submit _ rfl)
    have h2 := h1.step (thread_pool.PoolStep.land _ 0 0
      { closed := false, items := [] } (by decide) (by decide) rfl)
    have h3 := h2.step (thread_pool.PoolStep.popExec _ 0
      { closed := false, items := [0] } 0 [] (by decide) rfl)
    have h4 := h3.step (thread_pool.PoolStep.beginShutdown _)
    exact h4.step (thread_pool.PoolStep.closeQueue _ 0
      { closed := false, items := [] } rfl (by decide))
  exact (C1_pool_tasks_executed_exactly_once 1 thread_pool.poolDemo hreach).2 rfl
    (by decide) 0 (by decide) rfl
